import Mathlib

/-!
Verification of the chunked-analysis pipeline of the YouTube comments
analyser (src/analyzer.py).  The Python functions relevant to the claims
are embedded as executable Lean definitions:

* `clean_escape_characters` (YouTubeCommentsTool.clean_escape_characters,
  lines 67-80): a chain of regular-expression substitutions on a string;
* `split_comments` (CommentsAnalysis.split_comments, lines 184-186):
  slicing a list into fixed-size chunks;
* `fix_trailing_commas` (CommentsAnalysis.fix_trailing_commas,
  lines 210-214): removal of trailing commas before a closing bracket;
* `mergeResults` (CommentsAnalysis.merge_results, lines 216-248):
  folding the parsed per-chunk results into the six-theme final report,
  with Python iteration semantics for the `extend` calls;
* `run` (CommentsAnalysis.run, lines 250-296): the pipeline driver,
  instrumented with an explicit log, the list of agent invocations made,
  and whether the merger was invoked.

JSON values produced by `json.loads` are modelled by the inductive `JVal`;
the external LLM invocation (`crew.kickoff`) and the JSON parser
(`json.loads`) are opaque external collaborators and are passed to the
driver as function parameters.
-/

namespace Analyzer

/-- A JSON value as produced by Python's `json.loads`: `null`, booleans,
numbers, strings, arrays and objects (dictionaries in insertion order). -/
inductive JVal where
  | null : JVal
  | bool : Bool → JVal
  | num : Int → JVal
  | str : String → JVal
  | arr : List JVal → JVal
  | obj : List (String × JVal) → JVal

/-- The six keys of the `final_results` dictionary initialised by
`CommentsAnalysis.merge_results` (src/analyzer.py lines 223-230). -/
def reportKeys : List String :=
  ["Requests", "Complaints", "Suggestions", "Praise", "Troubleshooting", "Other"]

/-- The `final_results` dictionary of `merge_results`: six fixed theme keys,
each holding an ordered list of JSON values. -/
structure FinalReport where
  requests : List JVal
  complaints : List JVal
  suggestions : List JVal
  praise : List JVal
  troubleshooting : List JVal
  other : List JVal

/-- The initial `final_results` value of `merge_results` (lines 223-230):
every theme key mapped to an empty list. -/
def emptyReport : FinalReport := ⟨[], [], [], [], [], []⟩

/-- Dictionary lookup `final_results[key]` for the six report keys. -/
def getField (fr : FinalReport) (key : String) : List JVal :=
  if key = "Requests" then fr.requests
  else if key = "Complaints" then fr.complaints
  else if key = "Suggestions" then fr.suggestions
  else if key = "Praise" then fr.praise
  else if key = "Troubleshooting" then fr.troubleshooting
  else if key = "Other" then fr.other
  else []

/-- The update `final_results[key].extend(xs)`: append `xs` to the list held
at `key`.  Keys outside the six report keys leave the report unchanged (the
source only ever calls this with a key of the dictionary). -/
def addToKey (fr : FinalReport) (key : String) (xs : List JVal) : FinalReport :=
  if key = "Requests" then { fr with requests := fr.requests ++ xs }
  else if key = "Complaints" then { fr with complaints := fr.complaints ++ xs }
  else if key = "Suggestions" then { fr with suggestions := fr.suggestions ++ xs }
  else if key = "Praise" then { fr with praise := fr.praise ++ xs }
  else if key = "Troubleshooting" then { fr with troubleshooting := fr.troubleshooting ++ xs }
  else if key = "Other" then { fr with other := fr.other ++ xs }
  else fr

/-- Python's `isinstance(value, list)` on a JSON value. -/
def isList : JVal → Bool
  | .arr _ => true
  | _ => false

/-- The elements of a JSON array (only called on arrays). -/
def listElems : JVal → List JVal
  | .arr xs => xs
  | _ => []

/-- Python iteration of a JSON value, as performed by `list.extend(value)`
in `merge_results` (line 238): an array yields its elements, a string
yields its characters as one-character strings, a dictionary yields its
keys, and `null`, booleans and numbers are not iterable — `extend` raises
`TypeError`, modelled as `none`. -/
def pyElems : JVal → Option (List JVal)
  | .arr xs => some xs
  | .str s => some (s.data.map fun c => JVal.str (String.mk [c]))
  | .obj kvs => some (kvs.map fun kv => JVal.str kv.1)
  | _ => none

/-- One `(key, value)` iteration of the inner loop of `merge_results`
(lines 234-238): if `key` is a key of `final_results` and `value` is a
list, extend `final_results[key]` with it; otherwise extend
`final_results["Other"]` with the Python iteration of `value`, failing
(`none`) when `value` is not iterable. -/
def mergePair (fr : FinalReport) (key : String) (value : JVal) : Option FinalReport :=
  if key ∈ reportKeys ∧ isList value = true then
    some (addToKey fr key (listElems value))
  else
    (pyElems value).map fun es => addToKey fr "Other" es

/-- One `entry` iteration of the outer loop of `merge_results`
(lines 232-240): a dictionary entry is folded pair by pair; any other
entry is skipped with a logged error. -/
def mergeEntry (fr : FinalReport) : JVal → Option FinalReport
  | .obj kvs => kvs.foldlM (fun acc kv => mergePair acc kv.1 kv.2) fr
  | _ => some fr

/-- `CommentsAnalysis.merge_results` (lines 216-248) on the parsed contents
of `raw_results.json`: fold every entry into a report initialised with the
six empty theme lists.  `none` models the case where `list.extend` raised
`TypeError`, which the surrounding `except` catches after which no final
report is written. -/
def mergeResults (entries : List JVal) : Option FinalReport :=
  entries.foldlM mergeEntry emptyReport

/-- The key/value pairs a result-store entry contributes to the merge loop:
the pairs of a dictionary entry, nothing for a skipped non-dictionary. -/
def entryPairs : JVal → List (String × JVal)
  | .obj kvs => kvs
  | _ => []

/-- The contribution of a single `(key, value)` pair to theme `theme` of
the final report, per the contract of the Merger: a list value under a
recognised key goes to that key, everything else goes to `"Other"` via
Python iteration. -/
def pairContrib (theme : String) (key : String) (value : JVal) : List JVal :=
  if key ∈ reportKeys ∧ isList value = true then
    if key = theme then listElems value else []
  else if theme = "Other" then (pyElems value).getD [] else []

/-- The two files touched by `merge_results`: the raw result store it reads
and the final report file it overwrites (`none` = no report written). -/
structure MergeFiles where
  rawResults : List JVal
  finalFile : Option FinalReport

/-- One invocation of `CommentsAnalysis.merge_results` acting on the file
system: on success the final report file is overwritten with the freshly
built report; on failure the exception is logged and no file is written. -/
def mergeResultsStep (s : MergeFiles) : MergeFiles :=
  match mergeResults s.rawResults with
  | some r => { s with finalFile := some r }
  | none => s

/-! ## Text Sanitizer: `YouTubeCommentsTool.clean_escape_characters` (lines 67-80)

Each `re.sub` call is embedded as a left-to-right, non-overlapping scan over
the character list of the string, exactly the semantics of Python's
`re.sub` for these patterns.  `\s` is modelled by the six ASCII whitespace
characters it matches.  -/

/-- The characters matched by `\s` in the source's patterns and stripped by
`str.strip()` (restricted to the ASCII whitespace characters). -/
def pyWs (c : Char) : Bool :=
  c = ' ' || c = '\t' || c = '\n' || c = '\r' || c = '\x0b' || c = '\x0c'

/-- The character class `[0-9A-Fa-f]` of the unicode-escape patterns. -/
def isHexChar (c : Char) : Bool :=
  ('0' ≤ c && c ≤ '9') || ('A' ≤ c && c ≤ 'F') || ('a' ≤ c && c ≤ 'f')

/-- Lookahead for the tail of the pattern `\\u[0-9A-Fa-f]{4}` after its
leading backslash: a literal `u` followed by four hex digits. -/
def u4After : List Char → Bool
  | 'u' :: a :: b :: c :: d :: _ =>
    isHexChar a && isHexChar b && isHexChar c && isHexChar d
  | _ => false

/-- Lookahead for the tail of the pattern `\\U[0-9A-Fa-f]{8}` after its
leading backslash: a literal `U` followed by eight hex digits. -/
def u8After : List Char → Bool
  | 'U' :: a :: b :: c :: d :: e :: f :: g :: h :: _ =>
    isHexChar a && isHexChar b && isHexChar c && isHexChar d &&
    isHexChar e && isHexChar f && isHexChar g && isHexChar h
  | _ => false

/-- Scanner for `re.sub` with a unicode-escape pattern, deleting each match.
`look` recognises the pattern's tail after the leading backslash and `skip`
is that tail's length; the `Nat` argument counts characters of a recognised
match still to be deleted, so the scan resumes after the match exactly as
`re.sub` does. -/
def subUAux (look : List Char → Bool) (skip : Nat) : List Char → Nat → List Char
  | [], _ => []
  | _ :: cs, n + 1 => subUAux look skip cs n
  | c :: cs, 0 =>
    if c = '\\' && look cs then subUAux look skip cs skip
    else c :: subUAux look skip cs 0

/-- `re.sub(r'\\u[0-9A-Fa-f]{4}', '', text)` (line 69). -/
def subU4 (l : List Char) : List Char := subUAux u4After 5 l 0

/-- `re.sub(r'\\U[0-9A-Fa-f]{8}', '', text)` (line 70). -/
def subU8 (l : List Char) : List Char := subUAux u8After 9 l 0

/-- `re.sub` with a two-character pattern: a literal backslash followed by
`p2`, each match replaced by `rep`.  Instantiated for the substitutions of
lines 71-76. -/
def subEsc (p2 : Char) (rep : List Char) : List Char → List Char
  | [] => []
  | [c] => [c]
  | a :: b :: rest =>
    if a = '\\' && b = p2 then rep ++ subEsc p2 rep rest
    else a :: subEsc p2 rep (b :: rest)

/-- `re.sub(r'\\', '', text)` (line 77): delete every backslash. -/
def subBack : List Char → List Char
  | [] => []
  | c :: cs => if c = '\\' then subBack cs else c :: subBack cs

/-- `re.sub(r'\"', '', text)` (line 78): delete every double quote. -/
def subQuote : List Char → List Char
  | [] => []
  | c :: cs => if c = '"' then subQuote cs else c :: subQuote cs

/-- `re.sub(r'\s+', ' ', text)` (line 79): replace every maximal run of
whitespace characters by a single space.  Within a run all characters but
the last are dropped and the last becomes a space, which produces the same
string as replacing the whole run. -/
def collapseWs : List Char → List Char
  | [] => []
  | [c] => if pyWs c then [' '] else [c]
  | a :: b :: rest =>
    if pyWs a then
      if pyWs b then collapseWs (b :: rest)
      else ' ' :: collapseWs (b :: rest)
    else a :: collapseWs (b :: rest)

/-- `str.strip()` (line 79): drop leading and trailing whitespace. -/
def stripWs (l : List Char) : List Char :=
  List.rdropWhile pyWs (List.dropWhile pyWs l)

/-- The substitution chain of `clean_escape_characters` (lines 69-79) on a
character list, in source order. -/
def cleanChars (l : List Char) : List Char :=
  stripWs (collapseWs (subQuote (subBack
    (subEsc '$' ['$'] (subEsc '\'' ['\'']
      (subEsc '"' [] (subEsc 'r' [' '] (subEsc 't' [' ']
        (subEsc 'n' [' '] (subU8 (subU4 l)))))))))))

/-- `YouTubeCommentsTool.clean_escape_characters` (lines 67-80). -/
def clean_escape_characters (text : String) : String :=
  ⟨cleanChars text.data⟩

/-! ## JSON Repair: `CommentsAnalysis.fix_trailing_commas` (lines 210-214)

`re.sub(r',\s*]', ']', s)` replaces every non-overlapping occurrence of a
comma, optional whitespace and a closing bracket by the bracket alone.
The matched spans are pairwise disjoint (each contains exactly one
non-whitespace character after its comma, the closing bracket at its end),
so the replacement deletes a character iff it is a comma whose next
non-whitespace character is the bracket, or a whitespace character inside
such a span.  `subTrailing` performs that deletion in one scan; the `inSpan`
flag records that the scan is inside the whitespace run of a matched span. -/

/-- Does the list start with optional whitespace followed by `close`?
(the remainder of the pattern after its comma). -/
def wsThen (close : Char) : List Char → Bool
  | [] => false
  | c :: cs => if c = close then true else if pyWs c then wsThen close cs else false

/-- One `re.sub(r',\s*CLOSE', 'CLOSE', ·)` pass. -/
def subTrailing (close : Char) (inSpan : Bool) : List Char → List Char
  | [] => []
  | c :: cs =>
    if c = ',' && wsThen close cs then subTrailing close true cs
    else if inSpan && pyWs c then subTrailing close true cs
    else c :: subTrailing close false cs

/-- Does the list contain a comma followed by optional whitespace and
`close`, i.e. a match of the pattern `,\s*CLOSE`? -/
def hasTrailing (close : Char) : List Char → Bool
  | [] => false
  | c :: cs => (c = ',' && wsThen close cs) || hasTrailing close cs

/-- `CommentsAnalysis.fix_trailing_commas` (lines 210-214): first remove
trailing commas before `]`, then before `}`. -/
def fix_trailing_commas (json_str : String) : String :=
  ⟨subTrailing '}' false (subTrailing ']' false json_str.data)⟩

/-! ## Batcher: `CommentsAnalysis.split_comments` (lines 184-186)

`[comments[i:i + chunk_size] for i in range(0, len(comments), chunk_size)]`:
`range(0, N, K)` for `K > 0` is the list `[0, K, 2K, ...]` of length
`⌈N/K⌉ = (N + K - 1) / K`, and the slice `comments[i:i+K]` is
`(comments.drop i).take K`. -/

/-- `CommentsAnalysis.split_comments` (lines 184-186). -/
def split_comments (comments : List α) (chunk_size : Nat) : List (List α) :=
  (List.range' 0 ((comments.length + chunk_size - 1) / chunk_size) chunk_size).map
    fun i => (comments.drop i).take chunk_size

/-! ## Pipeline Driver: `CommentsAnalysis.run` (lines 250-296)

The external collaborators are parameters: `parse` models `json.loads`
(`none` = `json.JSONDecodeError`) and `invoke` models the agent invocation
`crew.kickoff` for a given task number and chunk (`str(result)` included).
The driver state records the result-store file contents, the final report
file, the error log, the task numbers for which an agent invocation was
made, and whether `merge_results` was invoked. -/

/-- The error-log records relevant to the claims, one constructor per
`logging.error` call of the driver. -/
inductive LogEvent where
  /-- The outer `except` of `run` (line 296), reached when the comments
  file is missing or unreadable. -/
  | fatal (msg : String)
  /-- Lines 288-289: the repaired chunk output failed to parse; the task
  number and the offending repaired text are logged. -/
  | chunkParseFailure (idx : Nat) (text : String)
  /-- Lines 197-198: the decode error inside `append_result_to_json`. -/
  | appendDecodeFailure (text : String)
deriving DecidableEq

/-- The observable state of one pipeline run. -/
structure RunState where
  /-- Contents of `raw_results.json`, reset to `[]` by
  `initialize_results_file` before the run. -/
  store : List JVal
  /-- Contents of `final_results.json` (`none` = not written this run). -/
  finalReport : Option FinalReport
  /-- The error log. -/
  log : List LogEvent
  /-- Task numbers for which an agent invocation (`crew.kickoff`) was made. -/
  invoked : List Nat
  /-- Whether `merge_results` was invoked. -/
  mergeInvoked : Bool

/-- The reset driver state: empty result store, no report, nothing logged,
no invocation made, merger not yet invoked. -/
def initState : RunState :=
  { store := [], finalReport := none, log := [], invoked := [], mergeInvoked := false }

/-- One iteration of the chunk loop of `run` (lines 267-291): invoke the
agent, repair the output, attempt to parse; on success call
`append_result_to_json` (which repairs and parses again before appending,
lines 188-208), on failure log the task number and the repaired text and
continue. -/
def processChunk (parse : String → Option JVal) (invoke : Nat → List String → String)
    (st : RunState) (idx : Nat) (chunk : List String) : RunState :=
  let fixed := fix_trailing_commas (invoke idx chunk)
  let st1 : RunState := { st with invoked := st.invoked ++ [idx] }
  match parse fixed with
  | some _ =>
    match parse (fix_trailing_commas fixed) with
    | some j => { st1 with store := st1.store ++ [j] }
    | none => { st1 with log := st1.log ++ [.appendDecodeFailure fixed] }
  | none => { st1 with log := st1.log ++ [.chunkParseFailure idx fixed] }

/-- The chunk loop of `run`, processing the chunks in order with
consecutive task numbers starting at `idx`. -/
def runChunks (parse : String → Option JVal) (invoke : Nat → List String → String) :
    Nat → List (List String) → RunState → RunState
  | _, [], st => st
  | idx, chunk :: rest, st =>
    runChunks parse invoke (idx + 1) rest (processChunk parse invoke st idx chunk)

/-- `CommentsAnalysis.run` (lines 250-296): a missing or unreadable
comments file raises before any chunk is processed and the outer `except`
logs it; otherwise the comments are split into chunks of 20, each chunk is
processed in order, and finally `merge_results` is invoked on the result
store. -/
def run (parse : String → Option JVal) (invoke : Nat → List String → String)
    (commentsFile : Option (List String)) : RunState :=
  match commentsFile with
  | none => { initState with log := [.fatal "An error occurred"] }
  | some comments_data =>
    let chunks := split_comments comments_data 20
    let st := runChunks parse invoke 1 chunks initState
    { st with finalReport := mergeResults st.store, mergeInvoked := true }

/-- What the raw output of one chunk contributes to the result store:
nothing if the repaired text does not parse, otherwise the value parsed by
`append_result_to_json` from the twice-repaired text. -/
def chunkStored (parse : String → Option JVal) (raw : String) : Option JVal :=
  match parse (fix_trailing_commas raw) with
  | none => none
  | some _ => parse (fix_trailing_commas (fix_trailing_commas raw))

/-- The error-log record one chunk's raw output produces, if any. -/
def chunkLogged (parse : String → Option JVal) (idx : Nat) (raw : String) :
    Option LogEvent :=
  match parse (fix_trailing_commas raw) with
  | none => some (.chunkParseFailure idx (fix_trailing_commas raw))
  | some _ =>
    match parse (fix_trailing_commas (fix_trailing_commas raw)) with
    | some _ => none
    | none => some (.appendDecodeFailure (fix_trailing_commas raw))

/-- The values the chunk loop appends to the result store, in order, when
processing `chunks` with consecutive task numbers from `idx`. -/
def storedResults (parse : String → Option JVal) (invoke : Nat → List String → String) :
    Nat → List (List String) → List JVal
  | _, [] => []
  | idx, chunk :: rest =>
    (chunkStored parse (invoke idx chunk)).toList ++ storedResults parse invoke (idx + 1) rest

/-- The error-log records the chunk loop produces, in order. -/
def loggedEvents (parse : String → Option JVal) (invoke : Nat → List String → String) :
    Nat → List (List String) → List LogEvent
  | _, [] => []
  | idx, chunk :: rest =>
    (chunkLogged parse idx (invoke idx chunk)).toList ++ loggedEvents parse invoke (idx + 1) rest

/-! ## Concrete instances used to exercise the driver theorems -/

/-- A concrete parser: accepts exactly the text `"good"`. -/
def exampleParse : String → Option JVal :=
  fun s => if s = "good" then some (JVal.obj [("Praise", JVal.arr [])]) else none

/-- A concrete invoker: task 2 answers malformed text, the others parse. -/
def exampleInvoke : Nat → List String → String :=
  fun idx _ => if idx = 2 then "bad" else "good"

/-- Twenty-one comments, so that `split_comments · 20` yields two chunks. -/
def exampleComments : List String := List.replicate 21 "c"

/-! # Theorems -/

/-! ## Merger idempotence (C8) -/

/-- **C8.** The Merger is idempotent over its input: `merge_results` reads
only the raw result store, rebuilds the report from the six empty lists
each time, and overwrites (rather than appends to) the prior report file,
so invoking it twice on the same `ResultStore` contents leaves exactly the
state the first invocation produced. -/
theorem mergeResultsStep_idempotent (s : MergeFiles) :
    mergeResultsStep (mergeResultsStep s) = mergeResultsStep s := by
  cases h : mergeResults s.rawResults with
  | none => simp [mergeResultsStep, h]
  | some r => simp [mergeResultsStep, h]

/-! ## Driver: missing source (C6) and empty source (C5) -/

/-- **C6.** If the comment source file is missing or unreadable the run
aborts fatally before any chunk is processed: the outer `except` logs the
error, no agent invocation is made, nothing is appended to the result
store, and the merger is never invoked, so no final report is produced. -/
theorem run_source_unavailable (parse : String → Option JVal)
    (invoke : Nat → List String → String) :
    run parse invoke none =
      { store := [], finalReport := none, log := [LogEvent.fatal "An error occurred"],
        invoked := [], mergeInvoked := false } := rfl

/-- **C5.** An empty comment source yields zero chunks, the result store
stays the empty list it was reset to, and the pipeline still invokes the
merger and produces a final report in which all six canonical theme keys
are present and mapped to empty lists. -/
theorem run_empty_source (parse : String → Option JVal)
    (invoke : Nat → List String → String) :
    split_comments ([] : List String) 20 = [] ∧
    run parse invoke (some []) =
      { store := [], finalReport := some emptyReport, log := [],
        invoked := [], mergeInvoked := true } ∧
    reportKeys.map (getField emptyReport) = [[], [], [], [], [], []] :=
  ⟨rfl, rfl, rfl⟩

/-! ## JSON Repair (C4) -/

/-- `subTrailing` only ever deletes characters: its output is a sublist of
its input, so the repair performs no modification beyond removal. -/
theorem subTrailing_sublist (close : Char) (b : Bool) (l : List Char) :
    List.Sublist (subTrailing close b l) l := by
  induction l generalizing b with
  | nil => simp [subTrailing]
  | cons c cs ih =>
    simp only [subTrailing]
    split
    · exact (ih true).cons c
    · split
      · exact (ih true).cons c
      · exact (ih false).cons₂ c

/-- A string with no match of `,\s*CLOSE` is left unchanged by the
corresponding `re.sub` pass. -/
theorem subTrailing_eq_self (close : Char) (l : List Char)
    (h : hasTrailing close l = false) : subTrailing close false l = l := by
  induction l with
  | nil => rfl
  | cons c cs ih =>
    simp only [hasTrailing, Bool.or_eq_false_iff] at h
    simp [subTrailing, h.1, ih h.2]

/-- **C4.** `fix_trailing_commas` removes exactly the commas (with their
intervening whitespace) that precede a closing `]` or `}` and performs no
other modification: the reference input repairs as specified, a string
containing no comma-whitespace-bracket pattern is returned unchanged, and
in general the output is a sublist of the input (nothing is added or
reordered, characters are only removed). -/
theorem fix_trailing_commas_contract :
    fix_trailing_commas "\x7b\"a\": [1,2,],\x7d" = "\x7b\"a\": [1,2]\x7d" ∧
    (∀ s : String, hasTrailing ']' s.data = false → hasTrailing '}' s.data = false →
      fix_trailing_commas s = s) ∧
    (∀ s : String, List.Sublist (fix_trailing_commas s).data s.data) := by
  refine ⟨by decide, fun s h1 h2 => ?_, fun s => ?_⟩
  · unfold fix_trailing_commas
    rw [subTrailing_eq_self _ _ h1, subTrailing_eq_self _ _ h2]
  · exact ((subTrailing_sublist '}' false _).trans (subTrailing_sublist ']' false s.data))

/-- Witness for C4 at a concrete input with no trailing commas. -/
theorem fix_trailing_commas_contract_witness :
    fix_trailing_commas "[1, 2]" = "[1, 2]" :=
  fix_trailing_commas_contract.2.1 "[1, 2]" rfl rfl

/-! ## Batcher (C2) -/

/-- Ceiling-division arithmetic behind the chunk count: one chunk of size
`K` accounts for `K` comments. -/
theorem ceil_div_shift (N K : Nat) (hK : 0 < K) (hN : 0 < N) :
    (N + K - 1) / K = (N - K + K - 1) / K + 1 := by
  rcases le_or_lt N K with h | h
  · have h1 : N - K = 0 := Nat.sub_eq_zero_of_le h
    rw [h1]
    have h2 : (K - 1) / K = 0 := Nat.div_eq_of_lt (Nat.sub_lt hK Nat.one_pos)
    simp only [Nat.zero_add, h2]
    exact Nat.div_eq_of_lt_le (by omega) (by omega)
  · have h1 : N + K - 1 = (N - K + K - 1) + K := by omega
    rw [h1, Nat.add_div_right _ hK]

/-- `split_comments` on an empty list yields no chunks. -/
theorem split_comments_nil (K : Nat) : split_comments ([] : List α) K = [] := by
  unfold split_comments
  rcases Nat.eq_zero_or_pos K with h | h
  · subst h; simp
  · simp [Nat.div_eq_of_lt (by omega : K - 1 < K)]

/-- Shifting the slice origin: slicing `l` at offsets `s + t, s + t + K, …`
is slicing `l.drop t` at offsets `s, s + K, …`. -/
theorem map_slice_range'_shift (l : List α) (K t : Nat) :
    ∀ (n s : Nat),
      (List.range' (s + t) n K).map (fun i => (l.drop i).take K) =
        (List.range' s n K).map (fun i => ((l.drop t).drop i).take K)
  | 0, _ => by simp
  | n + 1, s => by
    rw [List.range'_succ, List.range'_succ, List.map_cons, List.map_cons]
    congr 1
    · rw [List.drop_drop, Nat.add_comm t s]
    · rw [show s + t + K = (s + K) + t by omega]
      exact map_slice_range'_shift l K t n (s + K)

/-- Unfolding `split_comments` one chunk at a time. -/
theorem split_comments_cons (l : List α) (K : Nat) (hK : 0 < K) (hl : l ≠ []) :
    split_comments l K = l.take K :: split_comments (l.drop K) K := by
  have hN : 0 < l.length := List.length_pos.mpr hl
  unfold split_comments
  rw [List.length_drop, ceil_div_shift l.length K hK hN, List.range'_succ, List.map_cons]
  congr 1
  simpa using map_slice_range'_shift l K K ((l.length - K + K - 1) / K) 0

/-- The batching properties, proved by induction on a length bound. -/
theorem split_comments_spec_aux (K : Nat) (hK : 0 < K) :
    ∀ (n : Nat) (l : List α), l.length ≤ n →
      (split_comments l K).length = (l.length + K - 1) / K ∧
      (split_comments l K).flatten = l ∧
      (∀ c ∈ (split_comments l K).dropLast, c.length = K) ∧
      (∀ c ∈ split_comments l K, c.length ≤ K)
  | 0, l, hl => by
    have h0 : l = [] := List.eq_nil_of_length_eq_zero (Nat.le_zero.mp hl)
    subst h0
    have hz : (K - 1) / K = 0 := Nat.div_eq_of_lt (by omega)
    simp [split_comments_nil, hz]
  | n + 1, l, hl => by
    rcases eq_or_ne l [] with rfl | hne
    · have hz : (K - 1) / K = 0 := Nat.div_eq_of_lt (by omega)
      simp [split_comments_nil, hz]
    · have hN : 0 < l.length := List.length_pos.mpr hne
      obtain ⟨ih1, ih2, ih3, ih4⟩ :=
        split_comments_spec_aux K hK n (l.drop K) (by simp; omega)
      rw [split_comments_cons l K hK hne]
      refine ⟨?_, ?_, ?_, ?_⟩
      · simp only [List.length_cons, ih1, List.length_drop]
        exact (ceil_div_shift l.length K hK hN).symm
      · simp only [List.flatten_cons, ih2, List.take_append_drop]
      · rcases eq_or_ne (split_comments (l.drop K) K) [] with hrest | hrest
        · simp [hrest]
        · rw [List.dropLast_cons_of_ne_nil hrest]
          intro c hc
          rcases List.mem_cons.mp hc with rfl | hc
          · have hKN : K ≤ l.length := by
              by_contra hgt
              have : l.drop K = [] := List.drop_eq_nil_of_le (by omega)
              rw [this, split_comments_nil] at hrest
              exact hrest rfl
            simp only [List.length_take]
            omega
          · exact ih3 c hc
      · intro c hc
        rcases List.mem_cons.mp hc with rfl | hc
        · simp only [List.length_take]
          omega
        · exact ih4 c hc

/-- **C2.** For every comment sequence of length `N` and chunk size
`K > 0`, `split_comments` returns exactly `⌈N/K⌉ = (N + K - 1) / K`
chunks, every chunk except possibly the last has length exactly `K`, no
chunk is longer than `K`, the chunk lengths sum to exactly `N`, and
concatenating the chunks in order reproduces the original sequence. -/
theorem split_comments_batching (l : List α) (K : Nat) (hK : 0 < K) :
    (split_comments l K).length = (l.length + K - 1) / K ∧
    ((split_comments l K).map List.length).sum = l.length ∧
    (∀ c ∈ (split_comments l K).dropLast, c.length = K) ∧
    (∀ c ∈ split_comments l K, c.length ≤ K) ∧
    (split_comments l K).flatten = l := by
  obtain ⟨h1, h2, h3, h4⟩ := split_comments_spec_aux K hK l.length l (Nat.le_refl _)
  exact ⟨h1, by rw [← List.length_flatten, h2], h3, h4, h2⟩

/-- Witness for C2: five comments in chunks of two. -/
theorem split_comments_batching_witness :
    (split_comments ["a", "b", "c", "d", "e"] 2).length =
        ((["a", "b", "c", "d", "e"] : List String).length + 2 - 1) / 2 ∧
    ((split_comments ["a", "b", "c", "d", "e"] 2).map List.length).sum =
        (["a", "b", "c", "d", "e"] : List String).length ∧
    (∀ c ∈ (split_comments ["a", "b", "c", "d", "e"] 2).dropLast, c.length = 2) ∧
    (∀ c ∈ split_comments ["a", "b", "c", "d", "e"] 2, c.length ≤ 2) ∧
    (split_comments ["a", "b", "c", "d", "e"] 2).flatten = ["a", "b", "c", "d", "e"] :=
  split_comments_batching ["a", "b", "c", "d", "e"] 2 (by decide)

/-! ## Merger (C1, C10) -/

/-- Every theme list of the initial report is empty. -/
theorem getField_empty (theme : String) : getField emptyReport theme = [] := by
  unfold getField emptyReport
  split_ifs <;> rfl

/-- `addToKey` appends to exactly the addressed theme list. -/
theorem getField_addToKey (fr : FinalReport) (k theme : String) (xs : List JVal)
    (hk : k ∈ reportKeys) (ht : theme ∈ reportKeys) :
    getField (addToKey fr k xs) theme =
      getField fr theme ++ (if k = theme then xs else []) := by
  fin_cases hk <;> fin_cases ht <;> simp [addToKey, getField]

/-- One successful inner-loop iteration of `merge_results` appends exactly
`pairContrib` to every theme list. -/
theorem getField_mergePair (fr fr' : FinalReport) (k : String) (v : JVal)
    (h : mergePair fr k v = some fr') (theme : String) (ht : theme ∈ reportKeys) :
    getField fr' theme = getField fr theme ++ pairContrib theme k v := by
  by_cases hc : k ∈ reportKeys ∧ isList v = true
  · rw [mergePair, if_pos hc] at h
    injection h with h
    subst h
    rw [getField_addToKey fr k theme _ hc.1 ht, pairContrib, if_pos hc]
  · rw [mergePair, if_neg hc] at h
    cases hp : pyElems v with
    | none => rw [hp] at h; simp at h
    | some es =>
      rw [hp] at h
      simp only [Option.map_some'] at h
      injection h with h
      subst h
      rw [getField_addToKey fr "Other" theme es (by simp [reportKeys]) ht,
        pairContrib, if_neg hc, hp]
      congr 1
      by_cases hth : theme = "Other"
      · subst hth; simp
      · rw [if_neg (fun hh => hth hh.symm), if_neg hth]

/-- Folding the pairs of one entry appends the concatenated pair
contributions to every theme list. -/
theorem getField_foldPairs :
    ∀ (kvs : List (String × JVal)) (fr fr' : FinalReport),
      kvs.foldlM (fun acc kv => mergePair acc kv.1 kv.2) fr = some fr' →
      ∀ theme ∈ reportKeys,
        getField fr' theme = getField fr theme ++
          (kvs.map fun kv => pairContrib theme kv.1 kv.2).flatten
  | [], fr, fr', h => by
    simp only [List.foldlM_nil] at h
    injection h with h
    subst h
    simp
  | kv :: rest, fr, fr', h => by
    rw [List.foldlM_cons] at h
    cases hp : mergePair fr kv.1 kv.2 with
    | none => rw [hp] at h; exact Option.noConfusion h
    | some fr1 =>
      rw [hp] at h
      intro theme ht
      have h1 := getField_mergePair fr fr1 kv.1 kv.2 hp theme ht
      have h2 := getField_foldPairs rest fr1 fr' h theme ht
      rw [h2, h1, List.map_cons, List.flatten_cons, List.append_assoc]

/-- One successful outer-loop iteration of `merge_results` appends the
contributions of that entry's pairs (nothing for a skipped non-dictionary
entry). -/
theorem getField_mergeEntry (e : JVal) (fr fr' : FinalReport)
    (h : mergeEntry fr e = some fr') (theme : String) (ht : theme ∈ reportKeys) :
    getField fr' theme = getField fr theme ++
      ((entryPairs e).map fun kv => pairContrib theme kv.1 kv.2).flatten := by
  cases e with
  | obj kvs => exact getField_foldPairs kvs fr fr' h theme ht
  | null => injection h with h; subst h; simp [entryPairs]
  | bool b => injection h with h; subst h; simp [entryPairs]
  | num n => injection h with h; subst h; simp [entryPairs]
  | str s => injection h with h; subst h; simp [entryPairs]
  | arr xs => injection h with h; subst h; simp [entryPairs]

/-- Folding a list of entries appends all their pair contributions. -/
theorem getField_foldEntries :
    ∀ (entries : List JVal) (fr fr' : FinalReport),
      entries.foldlM mergeEntry fr = some fr' →
      ∀ theme ∈ reportKeys,
        getField fr' theme = getField fr theme ++
          (((entries.map entryPairs).flatten).map fun kv =>
            pairContrib theme kv.1 kv.2).flatten
  | [], fr, fr', h => by
    simp only [List.foldlM_nil] at h
    injection h with h
    subst h
    simp
  | e :: rest, fr, fr', h => by
    rw [List.foldlM_cons] at h
    cases hp : mergeEntry fr e with
    | none => rw [hp] at h; exact Option.noConfusion h
    | some fr1 =>
      rw [hp] at h
      intro theme ht
      have h1 := getField_mergeEntry e fr fr1 hp theme ht
      have h2 := getField_foldEntries rest fr1 fr' h theme ht
      rw [h2, h1, List.map_cons, List.flatten_cons, List.map_append,
        List.flatten_append, List.append_assoc]

/-- **C1.** When the Merger succeeds, every theme list of the final report
is exactly the in-order concatenation, over all `(key, value)` pairs of all
entries of the result store, of that pair's contribution: a list value
under one of the canonical keys goes to that key's list, and every other
pair's elements go to `"Other"`.  In particular the reference store with a
`"Praise"` entry and an unrecognised `"Weird"` entry merges to the report
with exactly those two records, all other theme lists empty. -/
theorem merge_results_characterization :
    (∀ (store : List JVal) (r : FinalReport), mergeResults store = some r →
      ∀ theme ∈ reportKeys,
        getField r theme =
          (((store.map entryPairs).flatten).map fun kv =>
            pairContrib theme kv.1 kv.2).flatten) ∧
    mergeResults
        [JVal.obj [("Praise",
            JVal.arr [JVal.obj [("comment", JVal.str "c1"), ("insight", JVal.str "i1")]])],
         JVal.obj [("Weird",
            JVal.arr [JVal.obj [("comment", JVal.str "c2"), ("insight", JVal.str "i2")]])]] =
      some { requests := [], complaints := [], suggestions := [],
             praise := [JVal.obj [("comment", JVal.str "c1"), ("insight", JVal.str "i1")]],
             troubleshooting := [],
             other := [JVal.obj [("comment", JVal.str "c2"), ("insight", JVal.str "i2")]] } := by
  constructor
  · intro store r h theme ht
    have := getField_foldEntries store emptyReport r h theme ht
    rwa [getField_empty, List.nil_append] at this
  · rfl

/-- Witness for C1 at a one-entry store. -/
theorem merge_results_characterization_witness :
    getField { requests := [], complaints := [], suggestions := [],
               praise := [JVal.num 1], troubleshooting := [], other := [] } "Praise" =
      ((([JVal.obj [("Praise", JVal.arr [JVal.num 1])]].map entryPairs).flatten).map
        fun kv => pairContrib "Praise" kv.1 kv.2).flatten :=
  merge_results_characterization.1 [JVal.obj [("Praise", JVal.arr [JVal.num 1])]]
    { requests := [], complaints := [], suggestions := [],
      praise := [JVal.num 1], troubleshooting := [], other := [] }
    rfl "Praise" (by decide)

/-- A pair whose value is not iterable makes the inner-loop iteration fail
whatever the accumulated report is. -/
theorem mergePair_none (k : String) (v : JVal)
    (hc : ¬(k ∈ reportKeys ∧ isList v = true)) (hp : pyElems v = none)
    (fr : FinalReport) : mergePair fr k v = none := by
  rw [mergePair, if_neg hc, hp]
  rfl

/-- A failing pair anywhere in an entry's pair list makes the whole fold
fail. -/
theorem foldPairs_none (k : String) (v : JVal)
    (hbad : ∀ fr : FinalReport, mergePair fr k v = none) :
    ∀ (kvs : List (String × JVal)), (k, v) ∈ kvs →
      ∀ fr : FinalReport, kvs.foldlM (fun acc kv => mergePair acc kv.1 kv.2) fr = none
  | kv :: rest, hmem, fr => by
    rw [List.foldlM_cons]
    rcases List.mem_cons.mp hmem with heq | hmem'
    · rw [← heq, hbad fr]
      rfl
    · cases hp : mergePair fr kv.1 kv.2 with
      | none => rfl
      | some fr1 =>
        exact foldPairs_none k v hbad rest hmem' fr1

/-- A failing entry anywhere in the store makes the whole merge fail. -/
theorem foldEntries_none (e : JVal)
    (hbad : ∀ fr : FinalReport, mergeEntry fr e = none) :
    ∀ (entries : List JVal), e ∈ entries →
      ∀ fr : FinalReport, entries.foldlM mergeEntry fr = none
  | e1 :: rest, hmem, fr => by
    rw [List.foldlM_cons]
    rcases List.mem_cons.mp hmem with heq | hmem'
    · rw [← heq, hbad fr]
      rfl
    · cases hp : mergeEntry fr e1 with
      | none => rfl
      | some fr1 =>
        exact foldEntries_none e hbad rest hmem' fr1

/-- **C10.** If any dictionary entry of the result store contains a pair
that falls into the `"Other"` branch (key not among the six report keys, or
value not a list) with a non-iterable value (`null`, a boolean or a
number), the `extend` raises `TypeError`, the exception is caught and
logged, and no final report is written at all — not even the contributions
of well-formed entries; whereas a string value in that branch has its
individual characters appended one by one to `"Other"`. -/
theorem merge_results_noniterable :
    (∀ (store : List JVal) (kvs : List (String × JVal)) (k : String) (v : JVal),
      JVal.obj kvs ∈ store → (k, v) ∈ kvs →
      ¬(k ∈ reportKeys ∧ isList v = true) → pyElems v = none →
      mergeResults store = none) ∧
    mergeResults
        [JVal.obj [("Praise", JVal.arr [JVal.str "fine"])],
         JVal.obj [("Weird", JVal.num 3)]] = none ∧
    mergeResults [JVal.obj [("Weird", JVal.str "ab")]] =
      some { requests := [], complaints := [], suggestions := [], praise := [],
             troubleshooting := [], other := [JVal.str "a", JVal.str "b"] } := by
  refine ⟨fun store kvs k v hment hmem hc hp => ?_, rfl, rfl⟩
  exact foldEntries_none (JVal.obj kvs)
    (fun fr => foldPairs_none k v (mergePair_none k v hc hp) kvs hmem fr)
    store hment emptyReport

/-- Witness for C10: a store whose single entry holds a non-iterable value
under an unrecognised key. -/
theorem merge_results_noniterable_witness :
    mergeResults [JVal.obj [("Weird", JVal.null)]] = none :=
  merge_results_noniterable.1 [JVal.obj [("Weird", JVal.null)]]
    [("Weird", JVal.null)] "Weird" JVal.null (by simp) (by simp) (by decide) rfl

/-! ## Pipeline Driver resilience (C3) -/

/-- Processing one chunk always records exactly its agent invocation. -/
theorem processChunk_invoked (parse : String → Option JVal)
    (invoke : Nat → List String → String) (st : RunState) (idx : Nat)
    (chunk : List String) :
    (processChunk parse invoke st idx chunk).invoked = st.invoked ++ [idx] := by
  simp only [processChunk]
  rcases parse (fix_trailing_commas (invoke idx chunk)) with _ | v
  · rfl
  · rcases parse (fix_trailing_commas (fix_trailing_commas (invoke idx chunk))) with _ | j <;>
      rfl

/-- Processing one chunk neither touches the final report nor invokes the
merger. -/
theorem processChunk_mergeState (parse : String → Option JVal)
    (invoke : Nat → List String → String) (st : RunState) (idx : Nat)
    (chunk : List String) :
    (processChunk parse invoke st idx chunk).mergeInvoked = st.mergeInvoked ∧
    (processChunk parse invoke st idx chunk).finalReport = st.finalReport := by
  simp only [processChunk]
  rcases parse (fix_trailing_commas (invoke idx chunk)) with _ | v
  · exact ⟨rfl, rfl⟩
  · rcases parse (fix_trailing_commas (fix_trailing_commas (invoke idx chunk))) with _ | j <;>
      exact ⟨rfl, rfl⟩

/-- Processing one chunk appends exactly `chunkStored` to the store. -/
theorem processChunk_store (parse : String → Option JVal)
    (invoke : Nat → List String → String) (st : RunState) (idx : Nat)
    (chunk : List String) :
    (processChunk parse invoke st idx chunk).store =
      st.store ++ (chunkStored parse (invoke idx chunk)).toList := by
  simp only [processChunk, chunkStored]
  rcases parse (fix_trailing_commas (invoke idx chunk)) with _ | v
  · simp
  · rcases parse (fix_trailing_commas (fix_trailing_commas (invoke idx chunk))) with _ | j <;>
      simp

/-- Processing one chunk appends exactly `chunkLogged` to the log. -/
theorem processChunk_log (parse : String → Option JVal)
    (invoke : Nat → List String → String) (st : RunState) (idx : Nat)
    (chunk : List String) :
    (processChunk parse invoke st idx chunk).log =
      st.log ++ (chunkLogged parse idx (invoke idx chunk)).toList := by
  simp only [processChunk, chunkLogged]
  rcases parse (fix_trailing_commas (invoke idx chunk)) with _ | v
  · simp
  · rcases parse (fix_trailing_commas (fix_trailing_commas (invoke idx chunk))) with _ | j <;>
      simp

/-- The chunk loop makes one invocation per chunk, with consecutive task
numbers, whatever the outcomes. -/
theorem runChunks_invoked (parse : String → Option JVal)
    (invoke : Nat → List String → String) :
    ∀ (chunks : List (List String)) (idx : Nat) (st : RunState),
      (runChunks parse invoke idx chunks st).invoked =
        st.invoked ++ List.range' idx chunks.length 1
  | [], idx, st => by simp [runChunks]
  | chunk :: rest, idx, st => by
    rw [runChunks, runChunks_invoked parse invoke rest (idx + 1),
      processChunk_invoked, List.length_cons, List.range'_succ, List.append_assoc]
    rfl

/-- The chunk loop appends exactly the successfully parsed results. -/
theorem runChunks_store (parse : String → Option JVal)
    (invoke : Nat → List String → String) :
    ∀ (chunks : List (List String)) (idx : Nat) (st : RunState),
      (runChunks parse invoke idx chunks st).store =
        st.store ++ storedResults parse invoke idx chunks
  | [], idx, st => by simp [runChunks, storedResults]
  | chunk :: rest, idx, st => by
    rw [runChunks, runChunks_store parse invoke rest (idx + 1), processChunk_store,
      storedResults, List.append_assoc]

/-- The chunk loop appends exactly the per-chunk failure records. -/
theorem runChunks_log (parse : String → Option JVal)
    (invoke : Nat → List String → String) :
    ∀ (chunks : List (List String)) (idx : Nat) (st : RunState),
      (runChunks parse invoke idx chunks st).log =
        st.log ++ loggedEvents parse invoke idx chunks
  | [], idx, st => by simp [runChunks, loggedEvents]
  | chunk :: rest, idx, st => by
    rw [runChunks, runChunks_log parse invoke rest (idx + 1), processChunk_log,
      loggedEvents, List.append_assoc]

/-- A chunk whose record is produced at position `i` contributes it to the
loop's log. -/
theorem mem_loggedEvents (parse : String → Option JVal)
    (invoke : Nat → List String → String) :
    ∀ (chunks : List (List String)) (idx i : Nat) (hi : i < chunks.length)
      (ev : LogEvent),
      chunkLogged parse (idx + i) (invoke (idx + i) (chunks.get ⟨i, hi⟩)) = some ev →
      ev ∈ loggedEvents parse invoke idx chunks
  | chunk :: rest, idx, 0, _, ev, h => by
    rw [loggedEvents]
    simp only [Nat.add_zero] at h
    rw [show (chunk :: rest).get ⟨0, by simp⟩ = chunk from rfl] at h
    rw [h]
    exact List.mem_append_left _ (List.mem_singleton.mpr rfl)
  | chunk :: rest, idx, i + 1, hi, ev, h => by
    rw [loggedEvents]
    refine List.mem_append_right _ ?_
    refine mem_loggedEvents parse invoke rest (idx + 1) i
      (Nat.lt_of_succ_lt_succ hi) ev ?_
    rw [show idx + 1 + i = idx + (i + 1) by omega]
    exact h

/-- **C3.** If the repaired invoker output of some chunk fails to parse,
the driver logs a failure record carrying that chunk's task number and the
offending repaired text, appends nothing to the result store for that
chunk, still invokes the agent for every chunk (so all subsequent chunks
are processed), still invokes the merger at the end, and the final report
is the merge of exactly the successfully parsed chunks' results. -/
theorem run_malformed_chunk_isolated (parse : String → Option JVal)
    (invoke : Nat → List String → String) (data : List String) (i : Nat)
    (hi : i < (split_comments data 20).length)
    (hfail : parse (fix_trailing_commas
      (invoke (i + 1) ((split_comments data 20).get ⟨i, hi⟩))) = none) :
    (run parse invoke (some data)).mergeInvoked = true ∧
    (run parse invoke (some data)).invoked =
      List.range' 1 (split_comments data 20).length 1 ∧
    LogEvent.chunkParseFailure (i + 1)
        (fix_trailing_commas (invoke (i + 1) ((split_comments data 20).get ⟨i, hi⟩)))
      ∈ (run parse invoke (some data)).log ∧
    chunkStored parse (invoke (i + 1) ((split_comments data 20).get ⟨i, hi⟩)) = none ∧
    (run parse invoke (some data)).store =
      storedResults parse invoke 1 (split_comments data 20) ∧
    (run parse invoke (some data)).finalReport =
      mergeResults (storedResults parse invoke 1 (split_comments data 20)) := by
  have hrun : run parse invoke (some data) =
      { runChunks parse invoke 1 (split_comments data 20) initState with
        finalReport :=
          mergeResults (runChunks parse invoke 1 (split_comments data 20) initState).store,
        mergeInvoked := true } := rfl
  have hstore := runChunks_store parse invoke (split_comments data 20) 1 initState
  have hlog := runChunks_log parse invoke (split_comments data 20) 1 initState
  have hstored : chunkStored parse
      (invoke (i + 1) ((split_comments data 20).get ⟨i, hi⟩)) = none := by
    rw [chunkStored, hfail]
  refine ⟨rfl, ?_, ?_, hstored, ?_, ?_⟩
  · rw [hrun]
    exact runChunks_invoked parse invoke (split_comments data 20) 1 initState
  · rw [hrun]
    show _ ∈ (runChunks parse invoke 1 (split_comments data 20) initState).log
    rw [hlog]
    refine List.mem_append_right _ ?_
    refine mem_loggedEvents parse invoke (split_comments data 20) 1 i hi _ ?_
    rw [show 1 + i = i + 1 by omega, chunkLogged, hfail]
  · rw [hrun]
    show (runChunks parse invoke 1 (split_comments data 20) initState).store = _
    rw [hstore]
    rfl
  · rw [hrun]
    show mergeResults (runChunks parse invoke 1 (split_comments data 20) initState).store = _
    rw [hstore]
    rfl

/-- Witness for C3: twenty-one comments make two chunks; the second task's
output is malformed, the first parses. -/
theorem run_malformed_chunk_isolated_witness :
    (run exampleParse exampleInvoke (some exampleComments)).mergeInvoked = true ∧
    (run exampleParse exampleInvoke (some exampleComments)).invoked =
      List.range' 1 (split_comments exampleComments 20).length 1 ∧
    LogEvent.chunkParseFailure (1 + 1)
        (fix_trailing_commas (exampleInvoke (1 + 1)
          ((split_comments exampleComments 20).get ⟨1, by decide⟩)))
      ∈ (run exampleParse exampleInvoke (some exampleComments)).log ∧
    chunkStored exampleParse (exampleInvoke (1 + 1)
      ((split_comments exampleComments 20).get ⟨1, by decide⟩)) = none ∧
    (run exampleParse exampleInvoke (some exampleComments)).store =
      storedResults exampleParse exampleInvoke 1 (split_comments exampleComments 20) ∧
    (run exampleParse exampleInvoke (some exampleComments)).finalReport =
      mergeResults
        (storedResults exampleParse exampleInvoke 1 (split_comments exampleComments 20)) :=
  run_malformed_chunk_isolated exampleParse exampleInvoke exampleComments 1
    (by decide) rfl

/-! ## Text Sanitizer (C7, C9)

After `re.sub(r'\\', '', ·)` the text contains no backslash, after
`re.sub(r'\"', '', ·)` no double quote, and after `re.sub(r'\s+', ' ', ·)`
and `strip()` the whitespace is normalised: every whitespace character is a
single interior space.  On such text every substitution of the chain is the
identity, which gives idempotence. -/

/-- A backslash-free text is untouched by the unicode-escape scanners. -/
theorem subUAux_id (look : List Char → Bool) (skip : Nat) :
    ∀ l : List Char, '\\' ∉ l → subUAux look skip l 0 = l
  | [], _ => rfl
  | c :: cs, h => by
    have hc : c ≠ '\\' := fun hh => h (hh ▸ List.mem_cons_self c cs)
    rw [subUAux, if_neg (by simp [hc]),
      subUAux_id look skip cs (fun hm => h (List.mem_cons_of_mem c hm))]

/-- A backslash-free text is untouched by the two-character substitutions. -/
theorem subEsc_id (p2 : Char) (rep : List Char) :
    ∀ l : List Char, '\\' ∉ l → subEsc p2 rep l = l
  | [], _ => rfl
  | [_], _ => rfl
  | a :: b :: rest, h => by
    have ha : a ≠ '\\' := fun hh => h (hh ▸ List.mem_cons_self a (b :: rest))
    rw [subEsc, if_neg (by simp [ha]),
      subEsc_id p2 rep (b :: rest) (fun hm => h (List.mem_cons_of_mem a hm))]

/-- A backslash-free text is untouched by backslash removal. -/
theorem subBack_id : ∀ l : List Char, '\\' ∉ l → subBack l = l
  | [], _ => rfl
  | c :: cs, h => by
    have hc : c ≠ '\\' := fun hh => h (hh ▸ List.mem_cons_self c cs)
    rw [subBack, if_neg hc, subBack_id cs (fun hm => h (List.mem_cons_of_mem c hm))]

/-- Backslash removal leaves no backslash. -/
theorem subBack_no_bs : ∀ l : List Char, '\\' ∉ subBack l
  | [] => by simp [subBack]
  | c :: cs => by
    rw [subBack]
    by_cases hc : c = '\\'
    · rw [if_pos hc]
      exact subBack_no_bs cs
    · rw [if_neg hc]
      intro hmem
      rcases List.mem_cons.mp hmem with heq | hmem'
      · exact hc heq.symm
      · exact subBack_no_bs cs hmem'

/-- A quote-free text is untouched by quote removal. -/
theorem subQuote_id : ∀ l : List Char, '"' ∉ l → subQuote l = l
  | [], _ => rfl
  | c :: cs, h => by
    have hc : c ≠ '"' := fun hh => h (hh ▸ List.mem_cons_self c cs)
    rw [subQuote, if_neg hc, subQuote_id cs (fun hm => h (List.mem_cons_of_mem c hm))]

/-- Quote removal leaves no double quote. -/
theorem subQuote_no_q : ∀ l : List Char, '"' ∉ subQuote l
  | [] => by simp [subQuote]
  | c :: cs => by
    rw [subQuote]
    by_cases hc : c = '"'
    · rw [if_pos hc]
      exact subQuote_no_q cs
    · rw [if_neg hc]
      intro hmem
      rcases List.mem_cons.mp hmem with heq | hmem'
      · exact hc heq.symm
      · exact subQuote_no_q cs hmem'

/-- Quote removal only removes characters. -/
theorem subQuote_mem : ∀ (l : List Char) (c : Char), c ∈ subQuote l → c ∈ l
  | [], _, h => absurd h (by simp [subQuote])
  | x :: xs, c, h => by
    rw [subQuote] at h
    by_cases hx : x = '"'
    · rw [if_pos hx] at h
      exact List.mem_cons_of_mem x (subQuote_mem xs c h)
    · rw [if_neg hx] at h
      rcases List.mem_cons.mp h with heq | hmem'
      · exact heq ▸ List.mem_cons_self x xs
      · exact List.mem_cons_of_mem x (subQuote_mem xs c hmem')

/-- Whitespace collapsing only introduces spaces or keeps input characters. -/
theorem collapseWs_mem : ∀ (l : List Char) (c : Char), c ∈ collapseWs l → c = ' ' ∨ c ∈ l
  | [], _, h => absurd h (by simp [collapseWs])
  | [c0], c, h => by
    rw [collapseWs] at h
    by_cases h0 : pyWs c0 = true
    · rw [if_pos h0] at h
      exact Or.inl (List.mem_singleton.mp h)
    · rw [if_neg h0] at h
      exact Or.inr h
  | a :: b :: rest, c, h => by
    rw [collapseWs] at h
    by_cases ha : pyWs a = true
    · rw [if_pos ha] at h
      by_cases hb : pyWs b = true
      · rw [if_pos hb] at h
        rcases collapseWs_mem (b :: rest) c h with h' | h'
        · exact Or.inl h'
        · exact Or.inr (List.mem_cons_of_mem a h')
      · rw [if_neg hb] at h
        rcases List.mem_cons.mp h with heq | h'
        · exact Or.inl heq
        · rcases collapseWs_mem (b :: rest) c h' with h'' | h''
          · exact Or.inl h''
          · exact Or.inr (List.mem_cons_of_mem a h'')
    · rw [if_neg ha] at h
      rcases List.mem_cons.mp h with heq | h'
      · exact Or.inr (heq ▸ List.mem_cons_self a (b :: rest))
      · rcases collapseWs_mem (b :: rest) c h' with h'' | h''
        · exact Or.inl h''
        · exact Or.inr (List.mem_cons_of_mem a h'')

/-- After collapsing, every whitespace character is a space. -/
theorem collapseWs_ws_space : ∀ (l : List Char) (c : Char), c ∈ collapseWs l →
    pyWs c = true → c = ' '
  | [], c, h, _ => absurd h (by simp [collapseWs])
  | [c0], c, h, hws => by
    rw [collapseWs] at h
    by_cases h0 : pyWs c0 = true
    · rw [if_pos h0] at h
      exact List.mem_singleton.mp h
    · rw [if_neg h0] at h
      rw [List.mem_singleton.mp h] at hws
      exact absurd hws (by simp [h0])
  | a :: b :: rest, c, h, hws => by
    rw [collapseWs] at h
    by_cases ha : pyWs a = true
    · rw [if_pos ha] at h
      by_cases hb : pyWs b = true
      · rw [if_pos hb] at h
        exact collapseWs_ws_space (b :: rest) c h hws
      · rw [if_neg hb] at h
        rcases List.mem_cons.mp h with heq | h'
        · exact heq
        · exact collapseWs_ws_space (b :: rest) c h' hws
    · rw [if_neg ha] at h
      rcases List.mem_cons.mp h with heq | h'
      · rw [heq] at hws
        exact absurd hws (by simp [ha])
      · exact collapseWs_ws_space (b :: rest) c h' hws

/-- The first character a collapse of a non-whitespace-headed list emits is
that head. -/
theorem collapseWs_head (b : Char) (rest : List Char) (hb : pyWs b = false) :
    (collapseWs (b :: rest)).head? = some b := by
  cases rest with
  | nil => rw [collapseWs, if_neg (by simp [hb])]; rfl
  | cons r rest' => rw [collapseWs, if_neg (by simp [hb])]; rfl

/-- After collapsing, no two adjacent characters are both whitespace. -/
theorem collapseWs_chain : ∀ l : List Char,
    List.Chain' (fun a b => pyWs a = false ∨ pyWs b = false) (collapseWs l)
  | [] => by simp [collapseWs]
  | [c0] => by
    rw [collapseWs]
    by_cases h0 : pyWs c0 = true
    · rw [if_pos h0]
      exact List.chain'_singleton _
    · rw [if_neg h0]
      exact List.chain'_singleton _
  | a :: b :: rest => by
    rw [collapseWs]
    by_cases ha : pyWs a = true
    · rw [if_pos ha]
      by_cases hb : pyWs b = true
      · rw [if_pos hb]
        exact collapseWs_chain (b :: rest)
      · rw [if_neg hb]
        rw [List.chain'_cons']
        refine ⟨?_, collapseWs_chain (b :: rest)⟩
        intro y hy
        have hb' : pyWs b = false := by simpa using hb
        rw [collapseWs_head b rest hb'] at hy
        have hyb : b = y := by simpa using hy
        rw [← hyb]
        exact Or.inr hb' 
    · rw [if_neg ha]
      rw [List.chain'_cons']
      refine ⟨?_, collapseWs_chain (b :: rest)⟩
      intro y _
      exact Or.inl (by simpa using ha)

/-- Collapsing is the identity on normalised text: every whitespace
character is a space and no two adjacent characters are whitespace. -/
theorem collapseWs_id : ∀ l : List Char,
    (∀ c ∈ l, pyWs c = true → c = ' ') →
    List.Chain' (fun a b => pyWs a = false ∨ pyWs b = false) l →
    collapseWs l = l
  | [], _, _ => rfl
  | [c0], hws, _ => by
    rw [collapseWs]
    by_cases h0 : pyWs c0 = true
    · rw [if_pos h0, hws c0 (by simp) h0]
    · rw [if_neg h0]
  | a :: b :: rest, hws, hch => by
    rw [List.chain'_cons] at hch
    rw [collapseWs]
    by_cases ha : pyWs a = true
    · have hb : pyWs b = false := by
        rcases hch.1 with h | h
        · exact absurd ha (by simp [h])
        · exact h
      rw [if_pos ha, if_neg (by simp [hb]), hws a (by simp) ha,
        collapseWs_id (b :: rest) (fun c hc hwc => hws c (List.mem_cons_of_mem a hc) hwc)
          hch.2]
    · rw [if_neg ha,
        collapseWs_id (b :: rest) (fun c hc hwc => hws c (List.mem_cons_of_mem a hc) hwc)
          hch.2]

/-- Stripping only removes characters. -/
theorem stripWs_mem (l : List Char) (c : Char) (h : c ∈ stripWs l) : c ∈ l := by
  have hpre := List.rdropWhile_prefix pyWs (List.dropWhile pyWs l)
  have h1 : c ∈ List.dropWhile pyWs l := (hpre.sublist).subset h
  exact ((List.dropWhile_suffix pyWs).sublist).subset h1

/-- The head of a `dropWhile` result does not satisfy the predicate. -/
theorem head_dropWhile (p : Char → Bool) :
    ∀ (l : List Char) (c : Char), (List.dropWhile p l).head? = some c → p c = false
  | [], c, h => by cases h
  | x :: xs, c, h => by
    by_cases hx : p x = true
    · rw [List.dropWhile_cons, if_pos hx] at h
      exact head_dropWhile p xs c h
    · rw [List.dropWhile_cons, if_neg hx] at h
      injection h with h
      rw [← h]
      simpa using hx

/-- The strip result starts with a non-whitespace character. -/
theorem stripWs_head_not (l : List Char) (c : Char) (h : (stripWs l).head? = some c) :
    pyWs c = false := by
  obtain ⟨t, ht⟩ := List.rdropWhile_prefix pyWs (List.dropWhile pyWs l)
  refine head_dropWhile pyWs l c ?_
  rw [← ht]
  show ((stripWs l) ++ t).head? = some c
  cases hsw : stripWs l with
  | nil => rw [hsw] at h; cases h
  | cons x xs =>
    rw [hsw] at h
    exact h

/-- The strip result ends with a non-whitespace character. -/
theorem stripWs_last_not (l : List Char) (c : Char) (h : (stripWs l).getLast? = some c) :
    pyWs c = false := by
  have hne : stripWs l ≠ [] := by
    intro hnil
    rw [hnil] at h
    cases h
  have hlast := List.rdropWhile_last_not pyWs (List.dropWhile pyWs l) hne
  rw [List.getLast?_eq_getLast _ hne] at h
  injection h with h
  rw [← h]
  simpa using hlast

/-- Stripping is the identity when neither end is whitespace. -/
theorem stripWs_id (l : List Char)
    (hh : ∀ c, l.head? = some c → pyWs c = false)
    (hl : ∀ c, l.getLast? = some c → pyWs c = false) :
    stripWs l = l := by
  have h1 : List.dropWhile pyWs l = l := by
    cases l with
    | nil => rfl
    | cons x xs => rw [List.dropWhile_cons, if_neg (by simp [hh x rfl])]
  unfold stripWs
  rw [h1, List.rdropWhile_eq_self_iff]
  intro hne
  simp [hl (l.getLast hne) (List.getLast?_eq_getLast l hne)]

/-- The sanitizer output contains no backslash. -/
theorem cleanChars_no_bs (l : List Char) : '\\' ∉ cleanChars l := by
  have key : ∀ y : List Char, '\\' ∉ y →
      '\\' ∉ stripWs (collapseWs (subQuote y)) := by
    intro y hy hmem
    rcases collapseWs_mem _ _ (stripWs_mem _ _ hmem) with h | h
    · exact absurd h (by decide)
    · exact hy (subQuote_mem _ _ h)
  exact key _ (subBack_no_bs _)

/-- The sanitizer output contains no double quote. -/
theorem cleanChars_no_quote (l : List Char) : '"' ∉ cleanChars l := by
  intro hmem
  rcases collapseWs_mem _ _ (stripWs_mem _ _ hmem) with h | h
  · exact absurd h (by decide)
  · exact subQuote_no_q _ h

/-- Every whitespace character of the sanitizer output is a space. -/
theorem cleanChars_ws_space (l : List Char) :
    ∀ c ∈ cleanChars l, pyWs c = true → c = ' ' :=
  fun c hc hws => collapseWs_ws_space _ c (stripWs_mem _ _ hc) hws

/-- No two adjacent characters of the sanitizer output are whitespace:
the strip keeps a contiguous segment of the collapsed text, on which the
chain condition is inherited. -/
theorem cleanChars_chain (l : List Char) :
    List.Chain' (fun a b => pyWs a = false ∨ pyWs b = false) (cleanChars l) := by
  have h1 := collapseWs_chain (subQuote (subBack
    (subEsc '$' ['$'] (subEsc '\'' ['\'']
      (subEsc '"' [] (subEsc 'r' [' '] (subEsc 't' [' ']
        (subEsc 'n' [' '] (subU8 (subU4 l))))))))))
  have h2 := List.Chain'.suffix h1 (List.dropWhile_suffix pyWs)
  exact List.Chain'.prefix h2 (List.rdropWhile_prefix pyWs _)

/-- The sanitizer output neither starts nor ends with whitespace. -/
theorem cleanChars_ends (l : List Char) :
    (∀ c, (cleanChars l).head? = some c → pyWs c = false) ∧
    (∀ c, (cleanChars l).getLast? = some c → pyWs c = false) :=
  ⟨fun c h => stripWs_head_not _ c h, fun c h => stripWs_last_not _ c h⟩

/-- The full substitution chain is the identity on its own output. -/
theorem cleanChars_idem (l : List Char) : cleanChars (cleanChars l) = cleanChars l := by
  have hbs := cleanChars_no_bs l
  have hq := cleanChars_no_quote l
  have hws := cleanChars_ws_space l
  have hch := cleanChars_chain l
  obtain ⟨hh, hl⟩ := cleanChars_ends l
  show stripWs (collapseWs (subQuote (subBack
    (subEsc '$' ['$'] (subEsc '\'' ['\'']
      (subEsc '"' [] (subEsc 'r' [' '] (subEsc 't' [' ']
        (subEsc 'n' [' '] (subU8 (subU4 (cleanChars l)))))))))))) = cleanChars l
  rw [show subU4 (cleanChars l) = cleanChars l from subUAux_id _ _ _ hbs,
    show subU8 (cleanChars l) = cleanChars l from subUAux_id _ _ _ hbs,
    subEsc_id 'n' [' '] _ hbs, subEsc_id 't' [' '] _ hbs, subEsc_id 'r' [' '] _ hbs,
    subEsc_id '"' [] _ hbs, subEsc_id '\'' ['\''] _ hbs, subEsc_id '$' ['$'] _ hbs,
    subBack_id _ hbs, subQuote_id _ hq, collapseWs_id _ hws hch, stripWs_id _ hh hl]

/-- **C7.** The Text Sanitizer is idempotent: applying
`clean_escape_characters` twice yields the same result as applying it
once.  After one pass the text has no backslash and no double quote and
its whitespace is normalised, so every substitution of the chain is the
identity on it. -/
theorem clean_escape_characters_idempotent (s : String) :
    clean_escape_characters (clean_escape_characters s) = clean_escape_characters s := by
  show (⟨cleanChars (cleanChars s.data)⟩ : String) = ⟨cleanChars s.data⟩
  rw [cleanChars_idem]

/-- The unicode-escape example of the sanitizer contract. -/
theorem clean_example_u4 : clean_escape_characters "x\\u0041y" = "xy" := by decide

/-- The long-unicode-escape example of the sanitizer contract. -/
theorem clean_example_u8 : clean_escape_characters "x\\U0001F600y" = "xy" := by decide

/-- The escaped-whitespace-marker example of the sanitizer contract. -/
theorem clean_example_marks : clean_escape_characters "a\\nb\\tc\\rd" = "a b c d" := by
  decide

/-- The quote-stripping example of the sanitizer contract. -/
theorem clean_example_quotes : clean_escape_characters "a\\\"b\"c" = "abc" := by decide

/-- The whitespace collapsing and trimming example of the sanitizer
contract. -/
theorem clean_example_ws : clean_escape_characters "  a \t b  " = "a b" := by decide

set_option maxHeartbeats 1000000 in
/-- **C9.** The Text Sanitizer removes `\uXXXX` and `\UXXXXXXXX` escape
sequences, converts the escaped newline, tab and carriage-return markers
to spaces, strips backslash-escaped quotes and literal double quotes,
collapses every whitespace run into one space, trims both ends, and always
returns a (possibly empty) string: the output never contains a quote or a
backslash, its whitespace is fully normalised, and the reference inputs
map to the specified outputs. -/
theorem clean_escape_characters_contract :
    (∀ s : String, '"' ∉ (clean_escape_characters s).data ∧
      '\\' ∉ (clean_escape_characters s).data) ∧
    (∀ s : String,
      (∀ c ∈ (clean_escape_characters s).data, pyWs c = true → c = ' ') ∧
      List.Chain' (fun a b => pyWs a = false ∨ pyWs b = false)
        (clean_escape_characters s).data ∧
      (∀ c, (clean_escape_characters s).data.head? = some c → pyWs c = false) ∧
      (∀ c, (clean_escape_characters s).data.getLast? = some c → pyWs c = false)) ∧
    clean_escape_characters "x\\u0041y" = "xy" ∧
    clean_escape_characters "x\\U0001F600y" = "xy" ∧
    clean_escape_characters "a\\nb\\tc\\rd" = "a b c d" ∧
    clean_escape_characters "a\\\"b\"c" = "abc" ∧
    clean_escape_characters "  a \t b  " = "a b" ∧
    clean_escape_characters "" = "" := by
  refine ⟨fun s => ⟨cleanChars_no_quote s.data, cleanChars_no_bs s.data⟩,
    fun s => ⟨cleanChars_ws_space s.data, cleanChars_chain s.data,
      (cleanChars_ends s.data).1, (cleanChars_ends s.data).2⟩,
    clean_example_u4, clean_example_u8, clean_example_marks, clean_example_quotes,
    clean_example_ws, rfl⟩

/-- Witness for C9 at a concrete input containing a quote. -/
theorem clean_escape_characters_contract_witness :
    '"' ∉ (clean_escape_characters "a\"b").data :=
  (clean_escape_characters_contract.1 "a\"b").1

end Analyzer

